import Mathlib

/-!
Verification of the omnisummary content normalization and enrichment pipeline.

This file gives a shallow embedding, in Lean 4, of the parts of the Python
code base that the verified properties talk about:

* the enrichment splicer (HTMLParser._enrich_content_with_figures in
  src/tools/content_parser/html_parser.py), including a faithful model of the
  Python regex scan for the placeholder pattern
  [Image: alt=(.*?), src=(.*?)] with lazy groups, as performed by re.sub;
* the figure analysis coordinator (Figure.from_llm in src/shared/models.py and
  the gather/filter join in HTMLParser._extract_and_analyze_figures);
* the image size budget compressor (Figure._resize_if_needed in
  src/shared/models.py), with the external JPEG encoder modelled as an
  unconstrained size function of width, height and quality;
* the dedup loop of HTMLParser._extract_and_analyze_figures;
* the metadata post processing of Content.from_llm in src/shared/models.py;
* the request scoped artifact store (ToolStateManager in
  src/agent/tool_state.py), together with a complete executable model of
  hashlib.sha256 over the UTF-8 encoding of the key.

Strings are modelled as lists of characters; Python dicts are modelled as
association lists whose lookup returns the most recently inserted binding.
-/

namespace OmniSummary

/-! ### Python string helpers -/

/-- Python str.isspace equivalent for the characters recognised by the regex
class backslash-s and by str.strip: space, tab, newline, carriage return,
vertical tab and form feed. -/
def pySpace (c : Char) : Bool :=
  c = ' ' || c = '\t' || c = '\n' || c = '\r' || c = '\x0b' || c = '\x0c'

/-- Python str.strip on a list of characters: drop whitespace from both
ends. -/
def pyStrip (l : List Char) : List Char :=
  ((l.dropWhile pySpace).reverse.dropWhile pySpace).reverse

/-- Python str.strip on a String. -/
def pyStripS (s : String) : String :=
  String.mk (pyStrip s.toList)

/-- Python replace of a double quote by backslash double quote, as in
value.replace(chr(34), backslash chr(34)) inside the splicer. -/
def escQuotes : List Char → List Char
  | [] => []
  | c :: cs => (if c = '"' then ['\\', '"'] else [c]) ++ escQuotes cs

/-! ### The figure record (class Figure in src/shared/models.py)

The Python field path has type str | Path | None; both string forms collapse
to String here, and None becomes Option.none.  Python str() applied to None
yields the literal string "None", which matters because the splicer builds
its lookup dictionary with key str(fig.path). -/

structure Figure where
  figure_id : String
  path : Option String
  caption : Option String
  analysis : Option String
deriving DecidableEq, Repr

/-- Python str(fig.path) for path : str | None. -/
def pathStr : Option String → String
  | some s => s
  | none => "None"

/-- Python truthiness of an optional string: None and the empty string are
falsy. -/
def strTruthy : Option String → Bool
  | some s => s ≠ ""
  | none => false

/-- Python expression a or b or "" where a is a string and b an optional
string. -/
def pyOrElse (a : String) (b : Option String) : String :=
  if a ≠ "" then a
  else match b with
       | some c => if c ≠ "" then c else ""
       | none => ""

/-! ### The placeholder regex

The splicer uses the Python pattern backslash-bracket Image colon,
backslash-s star, alt equals, lazy group one, comma, backslash-s star,
src equals, lazy group two, closing bracket, scanned by re.sub.  The lazy
dot does not match a newline.  The functions below implement exactly that
match at the head of a character list; subPlaceholders then implements the
left to right scan of re.sub. -/

def imgOpenLit : List Char := ['[', 'I', 'm', 'a', 'g', 'e', ':']

def altLit : List Char := ['a', 'l', 't', '=']

def srcLit : List Char := ['s', 'r', 'c', '=']

/-- Match a literal character list at the head, returning the rest. -/
def dropLit : List Char → List Char → Option (List Char)
  | [], l => some l
  | _ :: _, [] => none
  | p :: ps, c :: cs => if c = p then dropLit ps cs else none

/-- Lazy group two followed by a closing bracket: the shortest run of non
newline characters up to the first closing bracket. -/
def matchGroup2 : List Char → Option (List Char × List Char)
  | [] => none
  | c :: cs =>
    if c = ']' then some ([], cs)
    else if c = '\n' then none
    else match matchGroup2 cs with
         | some (g, r) => some (c :: g, r)
         | none => none

/-- The part of the pattern after group one: a comma, optional whitespace,
the literal src equals, then group two and the closing bracket. -/
def matchSrcTail (l : List Char) : Option (List Char × List Char) :=
  match dropLit [','] l with
  | none => none
  | some l1 =>
    match dropLit srcLit (l1.dropWhile pySpace) with
    | none => none
    | some l2 => matchGroup2 l2

/-- Lazy group one: at each position first try the tail of the pattern; on
failure consume one non newline character and retry.  Returns group one,
group two and the rest of the input after the whole match. -/
def matchGroup1 : List Char → Option (List Char × List Char × List Char)
  | [] => none
  | c :: cs =>
    match matchSrcTail (c :: cs) with
    | some (src, rest) => some ([], src, rest)
    | none =>
      if c = '\n' then none
      else match matchGroup1 cs with
           | some (g, src, rest) => some (c :: g, src, rest)
           | none => none

/-- Match the whole placeholder pattern at the head of the input. -/
def matchPlaceholder (l : List Char) : Option (List Char × List Char × List Char) :=
  match dropLit imgOpenLit l with
  | none => none
  | some l1 =>
    match dropLit altLit (l1.dropWhile pySpace) with
    | none => none
    | some l2 => matchGroup1 l2

/-- One pass of re.sub with a replacement function of the two groups,
written with explicit fuel so that the definition is structurally recursive
and evaluates inside the kernel.  The wrapper pySub supplies fuel equal to
the length of the input, which is always sufficient because a successful
match consumes at least one character. -/
def subFuel (repl : List Char → List Char → List Char) : Nat → List Char → List Char
  | _, [] => []
  | 0, l => l
  | fuel + 1, c :: cs =>
    match matchPlaceholder (c :: cs) with
    | some (a, s, rest) => repl a s ++ subFuel repl fuel rest
    | none => c :: subFuel repl fuel cs

/-- re.sub(pattern, repl, text) over character lists. -/
def pySub (repl : List Char → List Char → List Char) (l : List Char) : List Char :=
  subFuel repl l.length l

/-! ### The enrichment splicer

HTMLParser._enrich_content_with_figures builds a dict keyed by str(fig.path)
with later figures overwriting earlier ones, then substitutes every
placeholder match: when the stripped src group has a figure with a truthy
analysis, the placeholder becomes the inline annotated form with quotes in
the alt text and the analysis escaped; otherwise the match is replaced by
the empty string. -/

/-- Lookup in the dict built as a comprehension over figures: the binding of
the last figure with the given str(path) key wins. -/
def figMapGet (figures : List Figure) (key : String) : Option Figure :=
  figures.reverse.find? (fun f => pathStr f.path == key)

/-- The inline annotated replacement built by the f-string in the splicer:
its three holes receive the escaped alt text, str(fig.path) and the escaped
analysis. -/
def enrichedToken (altText srcText capText : List Char) : List Char :=
  "[Image: alt=\"".toList ++ altText ++ "\", src=\"".toList ++ srcText
    ++ "\", caption=\"".toList ++ capText ++ "\"]".toList

/-- The replacement function repl closed over the figure dict (the inner
def repl of the splicer).  Group values are stripped first; the lookup key
is the stripped src group. -/
def htmlRepl (figures : List Figure) (altG srcG : List Char) : List Char :=
  let altValue := pyStrip altG
  let srcValue := pyStrip srcG
  match figMapGet figures (String.mk srcValue) with
  | some f =>
    match f.analysis with
    | some an =>
      if an ≠ "" then
        enrichedToken (escQuotes (pyOrElse (String.mk altValue) f.caption).toList)
          (pathStr f.path).toList (escQuotes an.toList)
      else []
    | none => []
  | none => []

/-- HTMLParser._enrich_content_with_figures: with an empty figure list the
pattern is substituted by the empty string, otherwise by repl. -/
def enrichContentWithFigures (text : List Char) (figures : List Figure) : List Char :=
  if figures.isEmpty then pySub (fun _ _ => []) text
  else pySub (htmlRepl figures) text

/-! ### Structured texts

A raw document text is an interleaving of literal stretches and placeholder
tokens written by the parsers as the f-string
[Image: alt=(alt), src=(src)].  The cleanliness side conditions below define
the well formed placeholder tokens quantified over by the round trip
properties: the alt part contains no comma and no newline, the src part
contains no closing bracket and no newline (so the lazy groups recover
exactly the written parts), and literal stretches contain no opening
bracket (so no match can start inside one). -/

inductive Seg
  | lit : List Char → Seg
  | tok : List Char → List Char → Seg
deriving DecidableEq, Repr

def Seg.render : Seg → List Char
  | .lit s => s
  | .tok a s => "[Image: alt=".toList ++ a ++ ", src=".toList ++ s ++ [']']

def renderText (segs : List Seg) : List Char :=
  (segs.map Seg.render).flatten

def altClean (a : List Char) : Bool :=
  a.all (fun c => c ≠ ',' && c ≠ '\n')

def srcClean (s : List Char) : Bool :=
  s.all (fun c => c ≠ ']' && c ≠ '\n')

def litClean (s : List Char) : Bool :=
  s.all (fun c => c ≠ '[')

def Seg.clean : Seg → Bool
  | .lit s => litClean s
  | .tok a s => altClean a && srcClean s

/-- Whether a placeholder with the given raw src group finds a figure with a
truthy analysis, exactly as the splicer decides it. -/
def hasTruthyMatch (figures : List Figure) (srcG : List Char) : Bool :=
  match figMapGet figures (String.mk (pyStrip srcG)) with
  | some f => strTruthy f.analysis
  | none => false

/-! ### Length bookkeeping for the scanner -/

theorem dropLit_length : ∀ p l r, dropLit p l = some r → r.length + p.length = l.length := by
  intro p
  induction p with
  | nil =>
    intro l r h
    simp [dropLit] at h
    simp [h]
  | cons x xs ih =>
    intro l r h
    cases l with
    | nil => simp [dropLit] at h
    | cons c cs =>
      by_cases hc : c = x
      · simp [dropLit, hc] at h
        have := ih cs r h
        simp [List.length_cons]
        omega
      · simp [dropLit, hc] at h

theorem dropWhile_length_le (p : Char → Bool) : ∀ l : List Char, (l.dropWhile p).length ≤ l.length := by
  intro l
  induction l with
  | nil => simp
  | cons c cs ih =>
    by_cases hc : p c
    · simp [List.dropWhile, hc]
      omega
    · simp [List.dropWhile, hc]

theorem matchGroup2_length : ∀ l g r, matchGroup2 l = some (g, r) → g.length + r.length + 1 = l.length := by
  intro l
  induction l with
  | nil => intro g r h; simp [matchGroup2] at h
  | cons c cs ih =>
    intro g r h
    by_cases hc : c = ']'
    · simp [matchGroup2, hc] at h
      obtain ⟨hg, hr⟩ := h
      subst hg; subst hr
      simp
    · by_cases hn : c = '\n'
      · simp [matchGroup2, hc, hn] at h
      · simp [matchGroup2, hc, hn] at h
        cases hm : matchGroup2 cs with
        | none => rw [hm] at h; simp at h
        | some gr =>
          rw [hm] at h
          simp at h
          obtain ⟨hg, hr⟩ := h
          have := ih gr.1 gr.2 (by rw [hm])
          subst hg; subst hr
          simp [List.length_cons]
          omega

theorem matchSrcTail_length : ∀ l src rest, matchSrcTail l = some (src, rest) → rest.length < l.length := by
  intro l src rest h
  unfold matchSrcTail at h
  split at h
  · simp at h
  next l1 h1 =>
    split at h
    · simp at h
    next l2 h2 =>
      have e1 := dropLit_length _ _ _ h1
      have e2 := dropLit_length _ _ _ h2
      have e3 := matchGroup2_length _ _ _ h
      have e4 := dropWhile_length_le pySpace l1
      simp [srcLit] at e1 e2
      omega

theorem matchGroup1_length : ∀ l g src rest, matchGroup1 l = some (g, src, rest) → rest.length < l.length := by
  intro l
  induction l with
  | nil => intro g src rest h; simp [matchGroup1] at h
  | cons c cs ih =>
    intro g src rest h
    rw [matchGroup1] at h
    split at h
    next src1 rest1 ht =>
      simp at h
      obtain ⟨hg, hs, hr⟩ := h
      subst hs; subst hr
      exact matchSrcTail_length _ _ _ ht
    next ht =>
      split at h
      · simp at h
      · split at h
        next g1 src1 rest1 hm =>
          simp at h
          obtain ⟨hg, hs, hr⟩ := h
          have := ih g1 src1 rest1 hm
          subst hs; subst hr
          simp only [List.length_cons]
          omega
        next hm => simp at h

theorem matchPlaceholder_length : ∀ l a s rest,
    matchPlaceholder l = some (a, s, rest) → rest.length < l.length := by
  intro l a s rest h
  unfold matchPlaceholder at h
  split at h
  · simp at h
  next l1 h1 =>
    split at h
    · simp at h
    next l2 h2 =>
      have e1 := dropLit_length _ _ _ h1
      have e2 := dropLit_length _ _ _ h2
      have e3 := matchGroup1_length _ _ _ _ h
      have e4 := dropWhile_length_le pySpace l1
      simp [imgOpenLit, altLit] at e1 e2
      omega

/-- The result of subFuel does not depend on the fuel as long as the fuel
dominates the length of the input. -/
theorem subFuel_fuel_irrelevant (repl : List Char → List Char → List Char) :
    ∀ f1 f2 l, l.length ≤ f1 → l.length ≤ f2 → subFuel repl f1 l = subFuel repl f2 l := by
  intro f1
  induction f1 with
  | zero =>
    intro f2 l h1 _
    have : l = [] := List.length_eq_zero.mp (Nat.le_zero.mp h1)
    subst this
    cases f2 <;> simp [subFuel]
  | succ f ih =>
    intro f2 l h1 h2
    cases l with
    | nil => cases f2 <;> simp [subFuel]
    | cons c cs =>
      cases f2 with
      | zero => simp at h2
      | succ g =>
        rw [subFuel, subFuel]
        simp only [List.length_cons] at h1 h2
        cases hm : matchPlaceholder (c :: cs) with
        | none =>
          simp only
          have hcs : cs.length ≤ f := by omega
          have hcs2 : cs.length ≤ g := by omega
          rw [ih g cs hcs hcs2]
        | some t =>
          obtain ⟨a1, s1, r1⟩ := t
          simp only
          have hlt := matchPlaceholder_length _ _ _ _ hm
          simp only [List.length_cons] at hlt
          have ha : r1.length ≤ f := by omega
          have hb : r1.length ≤ g := by omega
          rw [ih g r1 ha hb]

/-! ### Scan decomposition on structured texts -/

theorem matchPlaceholder_none_of_head (c : Char) (cs : List Char) (h : c ≠ '[') :
    matchPlaceholder (c :: cs) = none := by
  simp [matchPlaceholder, imgOpenLit, dropLit, h]

theorem dropLit_self_append : ∀ p r : List Char, dropLit p (p ++ r) = some r := by
  intro p
  induction p with
  | nil => intro r; simp [dropLit]
  | cons x xs ih => intro r; simp [dropLit, ih]

theorem matchGroup2_token : ∀ s rest : List Char, srcClean s →
    matchGroup2 (s ++ ']' :: rest) = some (s, rest) := by
  intro s
  induction s with
  | nil => intro rest _; simp [matchGroup2]
  | cons c cs ih =>
    intro rest hs
    simp [srcClean] at hs
    obtain ⟨⟨hc1, hc2⟩, hcs⟩ := hs
    rw [List.cons_append, matchGroup2]
    simp [hc1, hc2, ih rest (by simpa [srcClean] using hcs)]

theorem matchGroup1_token : ∀ a s rest : List Char, altClean a → srcClean s →
    matchGroup1 (a ++ ',' :: ' ' :: (srcLit ++ (s ++ ']' :: rest))) = some (a, s, rest) := by
  intro a
  induction a with
  | nil =>
    intro s rest _ hs
    rw [List.nil_append, matchGroup1]
    have htail : matchSrcTail (',' :: ' ' :: (srcLit ++ (s ++ ']' :: rest))) = some (s, rest) := by
      unfold matchSrcTail
      simp only [show dropLit [','] (',' :: ' ' :: (srcLit ++ (s ++ ']' :: rest)))
            = some (' ' :: (srcLit ++ (s ++ ']' :: rest))) by simp [dropLit],
        show (' ' :: (srcLit ++ (s ++ ']' :: rest))).dropWhile pySpace
            = srcLit ++ (s ++ ']' :: rest) by simp [List.dropWhile, pySpace, srcLit],
        dropLit_self_append]
      exact matchGroup2_token s rest hs
    rw [htail]
  | cons c cs ih =>
    intro s rest ha hs
    simp [altClean] at ha
    obtain ⟨⟨hc1, hc2⟩, hcs⟩ := ha
    rw [List.cons_append, matchGroup1]
    have htail : matchSrcTail (c :: (cs ++ ',' :: ' ' :: (srcLit ++ (s ++ ']' :: rest)))) = none := by
      unfold matchSrcTail
      rw [show dropLit [','] (c :: (cs ++ ',' :: ' ' :: (srcLit ++ (s ++ ']' :: rest)))) = none by
        simp [dropLit, hc1]]
    rw [htail]
    simp only [hc2, if_false]
    rw [ih s rest (by simpa [altClean] using hcs) hs]

theorem render_tok_append (a s rest : List Char) :
    Seg.render (.tok a s) ++ rest
      = imgOpenLit ++ ' ' :: (altLit ++ (a ++ ',' :: ' ' :: (srcLit ++ (s ++ ']' :: rest)))) := by
  have h1 : "[Image: alt=".toList = imgOpenLit ++ ' ' :: altLit := by decide
  have h2 : ", src=".toList = [','] ++ [' '] ++ srcLit := by decide
  simp [Seg.render, h1, h2, imgOpenLit, altLit, srcLit]

theorem matchPlaceholder_token (a s rest : List Char) (ha : altClean a) (hs : srcClean s) :
    matchPlaceholder (Seg.render (.tok a s) ++ rest) = some (a, s, rest) := by
  rw [render_tok_append]
  unfold matchPlaceholder
  simp only [dropLit_self_append,
    show (' ' :: (altLit ++ (a ++ ',' :: ' ' :: (srcLit ++ (s ++ ']' :: rest))))).dropWhile pySpace
        = altLit ++ (a ++ ',' :: ' ' :: (srcLit ++ (s ++ ']' :: rest))) by
      simp [List.dropWhile, pySpace, altLit]]
  exact matchGroup1_token a s rest ha hs

/-- Scanning a literal stretch without an opening bracket copies it
verbatim. -/
theorem pySub_lit (repl : List Char → List Char → List Char) :
    ∀ s rest : List Char, litClean s → pySub repl (s ++ rest) = s ++ pySub repl rest := by
  intro s
  induction s with
  | nil => intro rest _; simp
  | cons c cs ih =>
    intro rest hcl
    simp [litClean] at hcl
    obtain ⟨hc, hcs⟩ := hcl
    have hnone := matchPlaceholder_none_of_head c (cs ++ rest) hc
    rw [List.cons_append]
    show subFuel repl (c :: (cs ++ rest)).length (c :: (cs ++ rest)) = _
    rw [List.length_cons, subFuel, hnone]
    simp only
    rw [show subFuel repl (cs ++ rest).length (cs ++ rest) = pySub repl (cs ++ rest) from rfl]
    rw [ih rest (by simpa [litClean] using hcs)]
    simp [List.cons_append]

/-- A successful match at the head makes the scanner emit the replacement
and continue after the match. -/
theorem pySub_match_step (repl : List Char → List Char → List Char)
    (l a s rest : List Char) (h : matchPlaceholder l = some (a, s, rest)) :
    pySub repl l = repl a s ++ pySub repl rest := by
  cases l with
  | nil => simp [matchPlaceholder, imgOpenLit, dropLit] at h
  | cons c cs =>
    show subFuel repl (c :: cs).length (c :: cs) = _
    rw [List.length_cons, subFuel, h]
    simp only
    have hlt := matchPlaceholder_length _ _ _ _ h
    simp only [List.length_cons] at hlt
    rw [subFuel_fuel_irrelevant repl cs.length rest.length rest (by omega) (by omega)]
    rfl

/-- Master decomposition: on a clean structured text, the Python regex
substitution acts segment by segment, copying literal stretches and
replacing each placeholder token by the replacement of its two groups. -/
theorem pySub_render (repl : List Char → List Char → List Char) :
    ∀ segs : List Seg, (∀ sg ∈ segs, Seg.clean sg) →
      pySub repl (renderText segs)
        = ((segs.map (fun sg => match sg with
            | .lit s => s
            | .tok a s => repl a s)).flatten) := by
  intro segs
  induction segs with
  | nil => intro _; simp [renderText, pySub, subFuel]
  | cons sg rest ih =>
    intro hclean
    have hsg := hclean sg (by simp)
    have hrest : ∀ x ∈ rest, Seg.clean x := fun x hx => hclean x (by simp [hx])
    cases sg with
    | lit s =>
      have : renderText (Seg.lit s :: rest) = s ++ renderText rest := by
        simp [renderText, Seg.render]
      rw [this, pySub_lit repl s (renderText rest) (by simpa [Seg.clean] using hsg)]
      simp [ih hrest]
    | tok a s =>
      simp [Seg.clean] at hsg
      obtain ⟨ha, hs⟩ := hsg
      have : renderText (Seg.tok a s :: rest) = Seg.render (.tok a s) ++ renderText rest := by
        simp [renderText]
      rw [this]
      rw [pySub_match_step repl _ a s (renderText rest)
        (matchPlaceholder_token a s (renderText rest) ha hs)]
      simp [ih hrest]

/-! ### Per token behaviour of the replacement function -/

theorem htmlRepl_of_truthy (figures : List Figure) (a s : List Char)
    (h : hasTruthyMatch figures s = true) :
    ∃ f an, figMapGet figures (String.mk (pyStrip s)) = some f ∧ f.analysis = some an ∧ an ≠ "" ∧
      htmlRepl figures a s
        = enrichedToken (escQuotes (pyOrElse (String.mk (pyStrip a)) f.caption).toList)
            (pathStr f.path).toList (escQuotes an.toList) := by
  unfold hasTruthyMatch at h
  split at h
  next f hf =>
    cases han : f.analysis with
    | none => rw [han] at h; simp [strTruthy] at h
    | some an =>
      rw [han] at h
      simp [strTruthy] at h
      refine ⟨f, an, hf, han, h, ?_⟩
      simp only [htmlRepl, hf, han]
      simp [h]
  next hf => simp at h

theorem htmlRepl_of_not_truthy (figures : List Figure) (a s : List Char)
    (h : hasTruthyMatch figures s = false) :
    htmlRepl figures a s = [] := by
  unfold hasTruthyMatch at h
  split at h
  next f hf =>
    cases han : f.analysis with
    | none => simp only [htmlRepl, hf, han]
    | some an =>
      rw [han] at h
      simp [strTruthy] at h
      simp only [htmlRepl, hf, han]
      simp [h]
  next hf => simp only [htmlRepl, hf]

/-- Decidable form of: the segment is a literal stretch, or its placeholder
has a figure with a truthy analysis. -/
def tokMatched (figures : List Figure) : Seg → Bool
  | .lit _ => true
  | .tok _ s => hasTruthyMatch figures s

/-! ### Claims C2 and C3 about the splicer -/

/-- C2 counterexample: a raw text holding exactly one well formed
placeholder token whose locator has a matching figure with a NON NULL
analysis, namely the empty string.  The hypothesis of the claim (a match
exists and its analysis is not null) is satisfied, and the claim then
demands exactly one enriched token in the spliced output.  The code instead
tests Python truthiness (if matched_figure and matched_figure.analysis),
under which the empty analysis is falsy, and deletes the token: the output
is the empty string, which holds zero enriched tokens. -/
theorem claim_c2_counterexample :
    figMapGet [(⟨"fig-0", some "u1", none, some ""⟩ : Figure)]
        (String.mk (pyStrip "u1".toList))
      = some (⟨"fig-0", some "u1", none, some ""⟩ : Figure) ∧
    (⟨"fig-0", some "u1", none, some ""⟩ : Figure).analysis ≠ none ∧
    enrichContentWithFigures (renderText [Seg.tok "cat".toList "u1".toList])
        [(⟨"fig-0", some "u1", none, some ""⟩ : Figure)]
      = [] :=
  ⟨by decide, by decide, by decide⟩

/-- C2 amended: for every raw text assembled from clean literal stretches
and n well formed placeholder tokens (the cleanliness side conditions
define well formedness: no comma or newline in the alt part, no closing
bracket or newline in the src part, no opening bracket in a literal
stretch), and every figure list in which each token locator has a matching
figure with a TRUTHY analysis — non null AND non empty, the Python
truthiness the code actually tests, strengthened from the non null of the
original claim as the counterexample forces — the splicer output keeps
every literal stretch verbatim and replaces each of the n tokens with an
enriched inline token of the form produced by enrichedToken, with quotes
escaped.  Hence the output holds exactly n enriched tokens and zero
remaining raw placeholder tokens: every original token was consumed by the
substitution. -/
theorem claim_c2_placeholder_round_trip (segs : List Seg) (figures : List Figure)
    (hclean : ∀ sg ∈ segs, Seg.clean sg = true)
    (hmatch : ∀ sg ∈ segs, tokMatched figures sg = true) :
    ∃ g : Seg → List Char,
      enrichContentWithFigures (renderText segs) figures = (segs.map g).flatten ∧
      (∀ s, g (.lit s) = s) ∧
      (∀ a s, Seg.tok a s ∈ segs →
        ∃ altText srcText capText, g (.tok a s) = enrichedToken altText srcText capText) := by
  cases figures with
  | nil =>
    refine ⟨fun sg => match sg with
      | .lit s => s
      | .tok a s => (fun _ _ => ([] : List Char)) a s, ?_, ?_, ?_⟩
    · have : enrichContentWithFigures (renderText segs) [] = pySub (fun _ _ => []) (renderText segs) := by
        simp [enrichContentWithFigures]
      rw [this, pySub_render _ segs hclean]
    · intro s; rfl
    · intro a s hmem
      have := hmatch _ hmem
      simp [tokMatched, hasTruthyMatch, figMapGet] at this
  | cons f fs =>
    refine ⟨fun sg => match sg with
      | .lit s => s
      | .tok a s => htmlRepl (f :: fs) a s, ?_, ?_, ?_⟩
    · have : enrichContentWithFigures (renderText segs) (f :: fs)
          = pySub (htmlRepl (f :: fs)) (renderText segs) := by
        simp [enrichContentWithFigures]
      rw [this, pySub_render _ segs hclean]
    · intro s; rfl
    · intro a s hmem
      have hmt := hmatch _ hmem
      simp only [tokMatched] at hmt
      obtain ⟨f0, an, _, _, _, heq⟩ := htmlRepl_of_truthy (f :: fs) a s hmt
      exact ⟨_, _, _, heq⟩

/-- Closed instance of the amended C2, discharging its hypotheses on the
scenario text Hello followed by one placeholder for http://x/a.png with one
matching analyzed figure. -/
theorem claim_c2_witness :
    (∀ sg ∈ [Seg.lit "Hello ".toList, Seg.tok "cat".toList "http://x/a.png".toList],
        Seg.clean sg = true) ∧
    (∀ sg ∈ [Seg.lit "Hello ".toList, Seg.tok "cat".toList "http://x/a.png".toList],
        tokMatched [⟨"fig-0", some "http://x/a.png", some "cat", some "A photo of a cat."⟩] sg = true) ∧
    (∃ g : Seg → List Char,
      enrichContentWithFigures
          (renderText [Seg.lit "Hello ".toList, Seg.tok "cat".toList "http://x/a.png".toList])
          [⟨"fig-0", some "http://x/a.png", some "cat", some "A photo of a cat."⟩]
        = ([Seg.lit "Hello ".toList, Seg.tok "cat".toList "http://x/a.png".toList].map g).flatten ∧
      (∀ s, g (.lit s) = s) ∧
      (∀ a s, Seg.tok a s ∈ [Seg.lit "Hello ".toList, Seg.tok "cat".toList "http://x/a.png".toList] →
        ∃ altText srcText capText, g (.tok a s) = enrichedToken altText srcText capText)) :=
  ⟨by decide, by decide,
    claim_c2_placeholder_round_trip
      [Seg.lit "Hello ".toList, Seg.tok "cat".toList "http://x/a.png".toList]
      [⟨"fig-0", some "http://x/a.png", some "cat", some "A photo of a cat."⟩]
      (by decide) (by decide)⟩

/-- C3: for every clean raw text and EVERY figure list — no assumption on
which tokens match — the splicer output decomposes segment by segment:
literal stretches are kept verbatim, and any placeholder token whose
locator has no figure with a truthy analysis (no match at all, a null
analysis, or the falsy empty analysis, which the code also drops) is
replaced by the empty string, with no enrichment marker inserted for it.
This is per token inside mixed texts: the same decomposition also carries
the tokens that do match, so one dropped token never disturbs the rest.
In particular with an empty figure list every token is stripped.  The
splicer is a total Lean function, so it never raises. -/
theorem claim_c3_graceful_drop (segs : List Seg) (figures : List Figure)
    (hclean : ∀ sg ∈ segs, Seg.clean sg = true) :
    ∃ g : Seg → List Char,
      enrichContentWithFigures (renderText segs) figures = (segs.map g).flatten ∧
      (∀ s, g (.lit s) = s) ∧
      (∀ a s, hasTruthyMatch figures s = false → g (.tok a s) = []) ∧
      (figures = [] → ∀ a s, g (.tok a s) = []) := by
  cases figures with
  | nil =>
    refine ⟨fun sg => match sg with
      | .lit s => s
      | .tok a s => (fun _ _ => ([] : List Char)) a s, ?_, ?_, ?_, ?_⟩
    · have : enrichContentWithFigures (renderText segs) [] = pySub (fun _ _ => []) (renderText segs) := by
        simp [enrichContentWithFigures]
      rw [this, pySub_render _ segs hclean]
    · intro s; rfl
    · intro a s _; rfl
    · intro _ a s; rfl
  | cons f fs =>
    refine ⟨fun sg => match sg with
      | .lit s => s
      | .tok a s => htmlRepl (f :: fs) a s, ?_, ?_, ?_, ?_⟩
    · have : enrichContentWithFigures (renderText segs) (f :: fs)
          = pySub (htmlRepl (f :: fs)) (renderText segs) := by
        simp [enrichContentWithFigures]
      rw [this, pySub_render _ segs hclean]
    · intro s; rfl
    · intro a s hfalse
      exact htmlRepl_of_not_truthy (f :: fs) a s hfalse
    · intro hcontra
      exact absurd hcontra (List.cons_ne_nil f fs)

/-- Closed instance of C3 on a mixed text: the token for u1 has no matching
figure and is dropped, while the token for u2 has a figure with a truthy
analysis, exercising the per token conjunct in the presence of a matched
sibling. -/
theorem claim_c3_witness :
    (∀ sg ∈ [Seg.tok "a".toList "u1".toList, Seg.lit " mid ".toList,
        Seg.tok "b".toList "u2".toList], Seg.clean sg = true) ∧
    hasTruthyMatch [(⟨"fig-0", some "u2", none, some "ok"⟩ : Figure)] "u1".toList = false ∧
    hasTruthyMatch [(⟨"fig-0", some "u2", none, some "ok"⟩ : Figure)] "u2".toList = true ∧
    (∃ g : Seg → List Char,
      enrichContentWithFigures
          (renderText [Seg.tok "a".toList "u1".toList, Seg.lit " mid ".toList,
            Seg.tok "b".toList "u2".toList])
          [(⟨"fig-0", some "u2", none, some "ok"⟩ : Figure)]
        = ([Seg.tok "a".toList "u1".toList, Seg.lit " mid ".toList,
            Seg.tok "b".toList "u2".toList].map g).flatten ∧
      (∀ s, g (.lit s) = s) ∧
      (∀ a s, hasTruthyMatch [(⟨"fig-0", some "u2", none, some "ok"⟩ : Figure)] s = false →
        g (.tok a s) = []) ∧
      ([(⟨"fig-0", some "u2", none, some "ok"⟩ : Figure)] = [] →
        ∀ a s, g (.tok a s) = [])) :=
  ⟨by decide, by decide, by decide,
    claim_c3_graceful_drop
      [Seg.tok "a".toList "u1".toList, Seg.lit " mid ".toList, Seg.tok "b".toList "u2".toList]
      [⟨"fig-0", some "u2", none, some "ok"⟩] (by decide)⟩

/-! ### The figure analysis coordinator

Figure.from_llm (src/shared/models.py) catches FigureParseError raised by
_get_image_data (HTTP error on a URL fetch, OSError on a local read, or the
compressor giving up) and then RETURNS a Figure whose analysis is None;
an exception from the analysis service is wrapped in a RuntimeError and,
after the tenacity retry ceiling, propagates out of from_llm.  The
coordinator gathers all tasks with return_exceptions=True and keeps only
the values that are Figure instances.  The external world of one candidate
is modelled by its terminal outcome after retries. -/

structure Cand where
  figure_id : String
  path : String
  caption : Option String
deriving DecidableEq, Repr

inductive FigOutcome
  | fetchFail
  | llmFail
  | analysed (analysis : String)
deriving DecidableEq, Repr

/-- Terminal behaviour of one Figure.from_llm task: image retrieval failure
is caught and yields a Figure with a null analysis; an analysis service
failure escapes as an exception; success yields the analysed Figure. -/
def fromLLM (outcome : FigOutcome) (c : Cand) : Except Unit Figure :=
  match outcome with
  | .fetchFail => .ok ⟨c.figure_id, some c.path, c.caption, none⟩
  | .llmFail => .error ()
  | .analysed an => .ok ⟨c.figure_id, some c.path, c.caption, some an⟩

/-- The gather and filter join of HTMLParser._extract_and_analyze_figures
(and of PdfParser._analyze_figures_concurrently): run every task, keep the
results that are Figures, drop the exceptions.  asyncio.gather preserves
task order, which the map models. -/
def gatherFigures (world : Cand → FigOutcome) (cands : List Cand) : List Figure :=
  (cands.map (fun c => fromLLM (world c) c)).filterMap (fun r =>
    match r with
    | .ok f => some f
    | .error _ => none)

def isLlmFail : FigOutcome → Bool
  | .llmFail => true
  | .fetchFail => false
  | .analysed _ => false

/-- Pointwise characterisation of the coordinator join. -/
theorem gatherFigures_eq (world : Cand → FigOutcome) (cands : List Cand) :
    gatherFigures world cands = cands.filterMap (fun c =>
      match world c with
      | .fetchFail => some ⟨c.figure_id, some c.path, c.caption, none⟩
      | .llmFail => none
      | .analysed an => some ⟨c.figure_id, some c.path, c.caption, some an⟩) := by
  induction cands with
  | nil => rfl
  | cons c cs ih =>
    simp only [gatherFigures, fromLLM] at ih
    simp only [gatherFigures, List.map_cons, List.filterMap_cons, fromLLM]
    cases hw : world c with
    | fetchFail =>
      simp only [hw]
      rw [ih]
    | llmFail =>
      simp only [hw]
      rw [ih]
    | analysed an =>
      simp only [hw]
      rw [ih]

/-- C1 counterexample: one candidate whose image retrieval fails.  The
claim predicts an empty result (N = 1, k = 1) whose members all carry a non
null analysis; the code instead returns that one figure with analysis None,
as Figure.from_llm catches FigureParseError and still constructs the
Figure. -/
theorem claim_c1_counterexample :
    ¬ ((gatherFigures (fun _ => FigOutcome.fetchFail)
          [⟨"fig-0", "http://x/a.png", none⟩]).length = 1 - 1 ∧
       ∀ f ∈ gatherFigures (fun _ => FigOutcome.fetchFail)
          [⟨"fig-0", "http://x/a.png", none⟩], f.analysis ≠ none) := by
  decide

/-- C1 amended: the coordinator never raises and one failure never blocks
the others; candidates whose analysis service call fails after retries are
excluded from the result; candidates whose image retrieval fails are kept
with a null analysis; successful candidates are kept with their non null
analysis.  The result length is N minus the number of analysis service
failures only. -/
theorem claim_c1_amended (world : Cand → FigOutcome) (cands : List Cand) :
    gatherFigures world cands = cands.filterMap (fun c =>
      match world c with
      | .fetchFail => some ⟨c.figure_id, some c.path, c.caption, none⟩
      | .llmFail => none
      | .analysed an => some ⟨c.figure_id, some c.path, c.caption, some an⟩) ∧
    (gatherFigures world cands).length
      = cands.length - cands.countP (fun c => isLlmFail (world c)) := by
  refine ⟨gatherFigures_eq world cands, ?_⟩
  induction cands with
  | nil => rfl
  | cons c cs ih =>
    have hle := List.countP_le_length (p := fun c => isLlmFail (world c)) (l := cs)
    rw [gatherFigures_eq] at ih ⊢
    cases hw : world c with
    | fetchFail =>
      simp only [List.filterMap_cons, List.countP_cons, hw, List.length_cons,
        show isLlmFail FigOutcome.fetchFail = false from rfl, Bool.false_eq_true,
        if_false, Nat.add_zero]
      omega
    | llmFail =>
      simp only [List.filterMap_cons, List.countP_cons, hw, List.length_cons,
        show isLlmFail FigOutcome.llmFail = true from rfl, eq_self_iff_true, if_true]
      omega
    | analysed an =>
      simp only [List.filterMap_cons, List.countP_cons, hw, List.length_cons,
        show ∀ s, isLlmFail (FigOutcome.analysed s) = false from fun _ => rfl,
        Bool.false_eq_true, if_false, Nat.add_zero]
      omega

/-- C10: an image retrieval failure for a candidate does not raise and does
not drop the candidate: the coordinator result contains a Figure with that
candidate id, path and caption and a null analysis. -/
theorem claim_c10_fetch_fail_kept_null (world : Cand → FigOutcome) (cands : List Cand)
    (c : Cand) (hc : c ∈ cands) (hw : world c = .fetchFail) :
    Figure.mk c.figure_id (some c.path) c.caption none ∈ gatherFigures world cands := by
  rw [gatherFigures_eq]
  exact List.mem_filterMap.mpr ⟨c, hc, by rw [hw]⟩

/-- Closed instance of C10 at a concrete failing candidate. -/
theorem claim_c10_witness :
    ((⟨"fig-0", "http://x/a.png", some "cat"⟩ : Cand) ∈
        [(⟨"fig-0", "http://x/a.png", some "cat"⟩ : Cand)]) ∧
    Figure.mk "fig-0" (some "http://x/a.png") (some "cat") none ∈
      gatherFigures (fun _ => FigOutcome.fetchFail)
        [(⟨"fig-0", "http://x/a.png", some "cat"⟩ : Cand)] :=
  ⟨by decide,
    claim_c10_fetch_fail_kept_null (fun _ => FigOutcome.fetchFail)
      [(⟨"fig-0", "http://x/a.png", some "cat"⟩ : Cand)]
      (⟨"fig-0", "http://x/a.png", some "cat"⟩ : Cand) (by decide) rfl⟩

/-! ### The image size budget compressor

Figure._resize_if_needed (src/shared/models.py).  An input within the
5242880 byte ceiling is returned unchanged.  Otherwise the image is decoded
and re-encoded as JPEG in a loop bounded by max_iterations (20 at the call
site): at quality steps of minus 10 from 85, then, when the quality floor of
10 is reached, both dimensions are scaled by 0.8 and quality resets to 85;
dimensions below 100 raise, and exhausting the loop raises.  The external
JPEG codec is modelled as an unconstrained size function of width, height
and quality: the code imposes no relation between iterations beyond its
control flow.  The Python expression int(width * 0.8) is modelled as
4 * width / 5 in natural division, which agrees with the float computation
for all realistic pixel dimensions. -/

def MAX_IMAGE_SIZE_BYTES : Nat := 5242880

def DEFAULT_RESIZE_QUALITY : Nat := 85

inductive ResizeErr
  | belowMinSize
  | iterationsExhausted
deriving DecidableEq, Repr

/-- The while loop of _resize_if_needed, with the remaining iteration count
as fuel (the loop condition iteration < max_iterations).  enc w h q is the
byte length of the JPEG encoding of the current image at quality q. -/
def resizeLoop (enc : Nat → Nat → Nat → Nat) : Nat → Nat → Nat → Nat → Except ResizeErr Nat
  | _, _, _, 0 => .error .iterationsExhausted
  | w, h, quality, fuel + 1 =>
    if enc w h quality ≤ MAX_IMAGE_SIZE_BYTES then .ok (enc w h quality)
    else if quality ≤ 10 then
      let nw := w * 4 / 5
      let nh := h * 4 / 5
      if nw < 100 ∨ nh < 100 then .error .belowMinSize
      else resizeLoop enc nw nh DEFAULT_RESIZE_QUALITY fuel
    else resizeLoop enc w h (quality - 10) fuel

/-- Figure._resize_if_needed: inputLen is the byte length of the input,
w and h the decoded pixel dimensions. -/
def resizeIfNeeded (enc : Nat → Nat → Nat → Nat) (inputLen w h maxIterations : Nat) :
    Except ResizeErr Nat :=
  if inputLen ≤ MAX_IMAGE_SIZE_BYTES then .ok inputLen
  else resizeLoop enc w h DEFAULT_RESIZE_QUALITY maxIterations

/-- The sequence of loop states (width, height, quality) at which an encode
is attempted, in order; its length is the number of loop iterations
executed. -/
def resizeTrace (enc : Nat → Nat → Nat → Nat) : Nat → Nat → Nat → Nat → List (Nat × Nat × Nat)
  | _, _, _, 0 => []
  | w, h, quality, fuel + 1 =>
    (w, h, quality) ::
      (if enc w h quality ≤ MAX_IMAGE_SIZE_BYTES then []
       else if quality ≤ 10 then
         let nw := w * 4 / 5
         let nh := h * 4 / 5
         if nw < 100 ∨ nh < 100 then []
         else resizeTrace enc nw nh DEFAULT_RESIZE_QUALITY fuel
       else resizeTrace enc w h (quality - 10) fuel)

/-- A successful loop result is within the byte ceiling. -/
theorem resizeLoop_ok_le (enc : Nat → Nat → Nat → Nat) :
    ∀ fuel w h q r, resizeLoop enc w h q fuel = .ok r → r ≤ MAX_IMAGE_SIZE_BYTES := by
  intro fuel
  induction fuel with
  | zero => intro w h q r hr; simp [resizeLoop] at hr
  | succ f ih =>
    intro w h q r hr
    rw [resizeLoop] at hr
    by_cases h1 : enc w h q ≤ MAX_IMAGE_SIZE_BYTES
    · rw [if_pos h1] at hr
      cases hr
      exact h1
    · rw [if_neg h1] at hr
      by_cases h2 : q ≤ 10
      · rw [if_pos h2] at hr
        by_cases h3 : w * 4 / 5 < 100 ∨ h * 4 / 5 < 100
        · simp only [h3, if_pos, if_true] at hr
          cases hr
        · simp only [h3, if_neg, if_false] at hr
          exact ih _ _ _ _ hr
      · rw [if_neg h2] at hr
        exact ih _ _ _ _ hr

/-- The number of executed iterations never exceeds the iteration
ceiling. -/
theorem resizeTrace_length_le (enc : Nat → Nat → Nat → Nat) :
    ∀ fuel w h q, (resizeTrace enc w h q fuel).length ≤ fuel := by
  intro fuel
  induction fuel with
  | zero => intro w h q; simp [resizeTrace]
  | succ f ih =>
    intro w h q
    rw [resizeTrace]
    by_cases h1 : enc w h q ≤ MAX_IMAGE_SIZE_BYTES
    · simp [h1]
    · rw [if_neg h1]
      by_cases h2 : q ≤ 10
      · rw [if_pos h2]
        by_cases h3 : w * 4 / 5 < 100 ∨ h * 4 / 5 < 100
        · simp only [h3, if_true, List.length_cons, List.length_nil]
          omega
        · simp only [h3, if_false, List.length_cons]
          have := ih (w * 4 / 5) (h * 4 / 5) DEFAULT_RESIZE_QUALITY
          omega
      · rw [if_neg h2]
        simp only [List.length_cons]
        have := ih w h (q - 10)
        omega

/-- C4: the compressor is a total function whose loop executes at most the
iteration ceiling (default 20); an input already within the ceiling is
returned unchanged; on an over budget input it returns a byte count within
the ceiling, hence strictly smaller than the input, or fails with one of
the two FigureParseError conditions; every successful result is at most
the input length. -/
theorem claim_c4_compressor_bounded (enc : Nat → Nat → Nat → Nat)
    (inputLen w h : Nat) :
    (inputLen ≤ MAX_IMAGE_SIZE_BYTES → resizeIfNeeded enc inputLen w h 20 = .ok inputLen) ∧
    (∀ r, resizeIfNeeded enc inputLen w h 20 = .ok r →
      r ≤ MAX_IMAGE_SIZE_BYTES ∧ r ≤ inputLen) ∧
    (inputLen > MAX_IMAGE_SIZE_BYTES →
      (resizeTrace enc w h DEFAULT_RESIZE_QUALITY 20).length ≤ 20 ∧
      ((∃ r, resizeIfNeeded enc inputLen w h 20 = .ok r ∧ r < inputLen) ∨
       (∃ e, resizeIfNeeded enc inputLen w h 20 = .error e))) := by
  refine ⟨?_, ?_, ?_⟩
  · intro hle
    simp [resizeIfNeeded, hle]
  · intro r hr
    by_cases hle : inputLen ≤ MAX_IMAGE_SIZE_BYTES
    · simp [resizeIfNeeded, hle] at hr
      subst hr
      exact ⟨hle, le_refl _⟩
    · simp [resizeIfNeeded, hle] at hr
      have := resizeLoop_ok_le enc 20 w h DEFAULT_RESIZE_QUALITY r hr
      constructor
      · exact this
      · omega
  · intro hgt
    refine ⟨resizeTrace_length_le enc 20 w h DEFAULT_RESIZE_QUALITY, ?_⟩
    have hne : ¬ inputLen ≤ MAX_IMAGE_SIZE_BYTES := by omega
    cases hres : resizeLoop enc w h DEFAULT_RESIZE_QUALITY 20 with
    | ok r =>
      left
      refine ⟨r, ?_, ?_⟩
      · simp [resizeIfNeeded, hne, hres]
      · have := resizeLoop_ok_le enc 20 w h DEFAULT_RESIZE_QUALITY r hres
        omega
    | error e =>
      right
      exact ⟨e, by simp [resizeIfNeeded, hne, hres]⟩

/-- Closed instance of C4: a 6000000 byte input with an encoder that fits
the budget at quality 75 is compressed below the ceiling, and a small
input is returned unchanged. -/
theorem claim_c4_witness :
    (1000 ≤ MAX_IMAGE_SIZE_BYTES →
      resizeIfNeeded (fun _ _ q => 5242880 + q) 1000 500 500 20 = .ok 1000) ∧
    (∀ r, resizeIfNeeded (fun _ _ q => 5242880 + q) 6000000 500 500 20 = .ok r →
      r ≤ MAX_IMAGE_SIZE_BYTES ∧ r ≤ 6000000) :=
  ⟨(claim_c4_compressor_bounded (fun _ _ q => 5242880 + q) 1000 500 500).1,
   (claim_c4_compressor_bounded (fun _ _ q => 5242880 + q) 6000000 500 500).2.1⟩

/-! ### Claim C8: per iteration behaviour of the compressor -/

/-- Adjacent encode attempts have non increasing byte sizes. -/
def sizesNonIncreasing : List Nat → Bool
  | a :: b :: t => decide (b ≤ a) && sizesNonIncreasing (b :: t)
  | _ => true

/-- One loop step either keeps the dimensions and strictly lowers the
quality, or strictly shrinks both dimensions. -/
def pairStep (s1 s2 : Nat × Nat × Nat) : Bool :=
  (decide (s2.1 = s1.1) && decide (s2.2.1 = s1.2.1) && decide (s2.2.2 < s1.2.2))
    || (decide (s2.1 < s1.1) && decide (s2.2.1 < s1.2.1))

def statesLexDecreasing : List (Nat × Nat × Nat) → Bool
  | s1 :: s2 :: t => pairStep s1 s2 && statesLexDecreasing (s2 :: t)
  | _ => true

theorem statesLexDecreasing_cons (st : Nat × Nat × Nat) (l : List (Nat × Nat × Nat))
    (hl : statesLexDecreasing l = true)
    (hhead : ∀ s2 t, l = s2 :: t → pairStep st s2 = true) :
    statesLexDecreasing (st :: l) = true := by
  cases l with
  | nil => rfl
  | cons s2 t =>
    simp only [statesLexDecreasing, Bool.and_eq_true]
    exact ⟨hhead s2 t rfl, hl⟩

theorem resizeTrace_head (enc : Nat → Nat → Nat → Nat) :
    ∀ fuel w h q s2 t, resizeTrace enc w h q fuel = s2 :: t → s2 = (w, h, q) := by
  intro fuel w h q s2 t heq
  cases fuel with
  | zero => simp [resizeTrace] at heq
  | succ f =>
    rw [resizeTrace] at heq
    exact (List.cons.injEq _ _ _ _ ▸ heq).1.symm

/-- C8 counterexample: a legitimate over budget compression run in which
the encoded candidate size strictly increases across the iteration that
shrinks the dimensions and resets the quality to its starting value.  The
encoder yields 6000000 bytes at 1000 pixels for every quality, 6000001
bytes at 800 pixels and quality 85, and 5000000 bytes afterwards; nothing
in _resize_if_needed prevents such an encoder, because the loop never
compares a candidate size against the previous one.  The run still
terminates successfully within budget. -/
theorem claim_c8_counterexample :
    resizeIfNeeded
        (fun w _ q => if w = 1000 then 6000000 else if q = 85 then 6000001 else 5000000)
        6000000 1000 1000 20 = .ok 5000000 ∧
    sizesNonIncreasing
        ((resizeTrace
            (fun w _ q => if w = 1000 then 6000000 else if q = 85 then 6000001 else 5000000)
            1000 1000 85 20).map
          (fun st =>
            (fun w _ q => if w = 1000 then 6000000 else if q = 85 then 6000001 else 5000000)
              st.1 st.2.1 st.2.2)) = false := by
  constructor
  · rfl
  · rfl

/-- C8 amended: what the loop control flow does guarantee per iteration is
a lexicographic decrease of the encode parameters, not of the encoded
sizes: each step either keeps the dimensions and strictly decreases the
quality by the fixed step, or strictly shrinks both dimensions (resetting
the quality); and the loop runs at most the iteration ceiling.  No
monotonicity of the candidate byte sizes is enforced, as the counterexample
shows. -/
theorem claim_c8_amended (enc : Nat → Nat → Nat → Nat) :
    ∀ fuel w h q, statesLexDecreasing (resizeTrace enc w h q fuel) = true ∧
      (resizeTrace enc w h q fuel).length ≤ fuel := by
  intro fuel
  induction fuel with
  | zero => intro w h q; exact ⟨rfl, by simp [resizeTrace]⟩
  | succ f ih =>
    intro w h q
    refine ⟨?_, resizeTrace_length_le enc (f + 1) w h q⟩
    rw [resizeTrace]
    apply statesLexDecreasing_cons
    · by_cases h1 : enc w h q ≤ MAX_IMAGE_SIZE_BYTES
      · simp only [h1, if_true]
        rfl
      · rw [if_neg h1]
        by_cases h2 : q ≤ 10
        · rw [if_pos h2]
          by_cases h3 : w * 4 / 5 < 100 ∨ h * 4 / 5 < 100
          · simp only [h3, if_true]
            rfl
          · simp only [h3, if_false]
            exact (ih (w * 4 / 5) (h * 4 / 5) DEFAULT_RESIZE_QUALITY).1
        · rw [if_neg h2]
          exact (ih w h (q - 10)).1
    · intro s2 t heq
      by_cases h1 : enc w h q ≤ MAX_IMAGE_SIZE_BYTES
      · rw [if_pos h1] at heq
        simp at heq
      · rw [if_neg h1] at heq
        by_cases h2 : q ≤ 10
        · rw [if_pos h2] at heq
          by_cases h3 : w * 4 / 5 < 100 ∨ h * 4 / 5 < 100
          · simp only [h3, if_true] at heq
            simp at heq
          · simp only [h3, if_false] at heq
            have hs2 := resizeTrace_head enc f _ _ _ _ _ heq
            subst hs2
            push_neg at h3
            simp [pairStep]
            omega
        · rw [if_neg h2] at heq
          have hs2 := resizeTrace_head enc f _ _ _ _ _ heq
          subst hs2
          simp [pairStep]
          omega

/-! ### Metadata post processing of Content.from_llm

Content.from_llm (src/shared/models.py, lines 188 to 205): the fields
authors, affiliations, categories, keywords are split on commas and each
item stripped, empties dropped, whenever the value is a string; afterwards
ONLY authors, affiliations and published_date are set to None when their
value equals the string None or the one element list holding None.  A raw
metadata value is either a string or a list of strings, or absent. -/

inductive MetaVal
  | str (s : String)
  | list (l : List String)
deriving DecidableEq, Repr

structure RawMetadata where
  authors : Option MetaVal
  affiliations : Option MetaVal
  categories : Option MetaVal
  keywords : Option MetaVal
  published_date : Option MetaVal
deriving DecidableEq, Repr

/-- Python s.split on a comma over character lists, keeping empty pieces,
exactly like str.split with an explicit separator. -/
def splitCommaAux : List Char → List Char → List (List Char)
  | [], acc => [acc.reverse]
  | c :: cs, acc =>
    if c = ',' then acc.reverse :: splitCommaAux cs []
    else splitCommaAux cs (c :: acc)

/-- The list comprehension item.strip() for item in value.split(",") if
item.strip(). -/
def splitTrimPy (s : String) : List String :=
  ((splitCommaAux s.toList []).map (fun l => String.mk (pyStrip l))).filter
    (fun x => x ≠ "")

/-- The list_fields loop body: a string value is split and trimmed, any
other value is left alone. -/
def normListField : Option MetaVal → Option MetaVal
  | some (.str s) => some (.list (splitTrimPy s))
  | v => v

/-- The none_fields loop body: a value equal to the string None or to the
one element list holding None becomes absent. -/
def noneNormalize (v : Option MetaVal) : Option MetaVal :=
  match v with
  | some mv => if mv = MetaVal.str "None" ∨ mv = MetaVal.list ["None"] then none else some mv
  | none => none

/-- The composed post processing applied to the metadata dict before the
Content constructor: list_fields covers authors, affiliations, categories
and keywords; none_fields covers authors, affiliations and published_date
only. -/
def processedMeta (m : RawMetadata) : RawMetadata :=
  ⟨noneNormalize (normListField m.authors),
   noneNormalize (normListField m.affiliations),
   normListField m.categories,
   normListField m.keywords,
   noneNormalize m.published_date⟩

/-- The metadata carrying fields of the constructed Content. -/
structure ContentFields where
  authors : Option (List String)
  affiliations : Option (List String)
  categories : Option (List String)
  keywords : List String
  published_date : Option String
deriving DecidableEq, Repr

/-- The pydantic pattern for published_date, four digits dash two digits
dash two digits (ASCII digits; the Python re class also admits other
Unicode digits, which no claim depends on). -/
def dateOk (s : String) : Bool :=
  match s.toList with
  | [y1, y2, y3, y4, d1, mo1, mo2, d2, dd1, dd2] =>
    y1.isDigit && y2.isDigit && y3.isDigit && y4.isDigit && d1 = '-'
      && mo1.isDigit && mo2.isDigit && d2 = '-' && dd1.isDigit && dd2.isDigit
  | _ => false

/-- Pydantic validation of a processed value against the field type
Optional list of strings: absent gives None, a list passes, a bare string
fails validation (outer none). -/
def toOptList : Option MetaVal → Option (Option (List String))
  | none => some none
  | some (.list l) => some (some l)
  | some (.str _) => none

/-- Construction of the Content metadata fields from the raw extraction
response: post processing followed by pydantic validation (keywords
defaults to the empty list when absent).  An outer none is a pydantic
ValidationError. -/
def fromLLMFields (m : RawMetadata) : Option ContentFields :=
  let p := processedMeta m
  match toOptList p.authors, toOptList p.affiliations, toOptList p.categories,
      toOptList p.keywords with
  | some au, some af, some ca, some kw =>
    match p.published_date with
    | none => some ⟨au, af, ca, kw.getD [], none⟩
    | some (.str s) => if dateOk s then some ⟨au, af, ca, kw.getD [], some s⟩ else none
    | some (.list _) => none
  | _, _, _, _ => none

/-! ### Strip idempotence -/

/-- Removal of trailing characters satisfying p. -/
def dropTrail (p : Char → Bool) (l : List Char) : List Char :=
  (l.reverse.dropWhile p).reverse

theorem dropWhile_idem (p : Char → Bool) :
    ∀ l : List Char, (l.dropWhile p).dropWhile p = l.dropWhile p := by
  intro l
  induction l with
  | nil => rfl
  | cons c cs ih =>
    by_cases hc : p c
    · simp only [List.dropWhile, hc]
      exact ih
    · simp [List.dropWhile, hc]

theorem dropWhile_suffix (p : Char → Bool) :
    ∀ l : List Char, ∃ t, l = t ++ l.dropWhile p := by
  intro l
  induction l with
  | nil => exact ⟨[], rfl⟩
  | cons c cs ih =>
    by_cases hc : p c
    · obtain ⟨t, ht⟩ := ih
      refine ⟨c :: t, ?_⟩
      simp only [List.dropWhile, hc, List.cons_append]
      rw [← ht]
    · exact ⟨[], by simp [List.dropWhile, hc]⟩

theorem head?_dropTrail (p : Char → Bool) (m : List Char) (h : dropTrail p m ≠ []) :
    (dropTrail p m).head? = m.head? := by
  obtain ⟨t, ht⟩ := dropWhile_suffix p m.reverse
  have hS : m.reverse.dropWhile p ≠ [] := by
    intro hS
    apply h
    unfold dropTrail
    rw [hS]
    rfl
  unfold dropTrail
  rw [List.head?_reverse]
  calc (m.reverse.dropWhile p).getLast?
      = (t ++ m.reverse.dropWhile p).getLast? := (List.getLast?_append_of_ne_nil t hS).symm
    _ = m.reverse.getLast? := by rw [← ht]
    _ = m.head? := by rw [List.getLast?_reverse]

theorem dropWhile_eq_self_of_head (p : Char → Bool) (m : List Char)
    (h : ∀ c, m.head? = some c → p c = false) : m.dropWhile p = m := by
  cases m with
  | nil => rfl
  | cons c cs =>
    have := h c rfl
    simp [List.dropWhile, this]

theorem head_false_of_dropWhile_self (p : Char → Bool) (m : List Char)
    (h : m.dropWhile p = m) : ∀ c, m.head? = some c → p c = false := by
  cases m with
  | nil => intro c hc; simp at hc
  | cons c0 cs =>
    intro c hc
    simp only [List.head?_cons, Option.some.injEq] at hc
    rw [← hc]
    by_cases hp : p c0
    · exfalso
      rw [List.dropWhile_cons, if_pos hp] at h
      have hlen := dropWhile_length_le p cs
      have := congrArg List.length h
      simp at this
      omega
    · simpa using hp

theorem pyStrip_self (X : List Char) (h1 : X.dropWhile pySpace = X)
    (h2 : X.reverse.dropWhile pySpace = X.reverse) : pyStrip X = X := by
  unfold pyStrip
  rw [h1, h2, List.reverse_reverse]

theorem pyStrip_idem (l : List Char) : pyStrip (pyStrip l) = pyStrip l := by
  have hform : pyStrip l = dropTrail pySpace (l.dropWhile pySpace) := rfl
  apply pyStrip_self
  · apply dropWhile_eq_self_of_head
    intro c hc
    have hne : dropTrail pySpace (l.dropWhile pySpace) ≠ [] := by
      intro hnil
      rw [hform, hnil] at hc
      simp at hc
    have hh := head?_dropTrail pySpace (l.dropWhile pySpace) hne
    have hno := head_false_of_dropWhile_self pySpace (l.dropWhile pySpace)
      (dropWhile_idem pySpace l)
    apply hno
    rw [← hh, ← hform]
    exact hc
  · unfold pyStrip
    rw [List.reverse_reverse]
    exact dropWhile_idem pySpace _

theorem pyStripS_idem (s : String) : pyStripS (pyStripS s) = pyStripS s := by
  unfold pyStripS
  rw [show (String.mk (pyStrip s.toList)).toList = pyStrip s.toList from rfl]
  rw [pyStrip_idem]

/-! ### Claim C7 -/

/-- C7 counterexample: a structured extraction response in which the
categories and keywords fields hold the literal string None.  The claim
says the constructed Content interprets the literal None as absent for any
field, but the code only does so for authors, affiliations and
published_date: categories keeps the one element list holding the literal
None, and so does keywords. -/
theorem claim_c7_counterexample :
    fromLLMFields ⟨none, none, some (MetaVal.str "None"), some (MetaVal.str "None"),
        some (MetaVal.str "None")⟩
      = some ⟨none, none, some ["None"], ["None"], none⟩ ∧
    ∃ cf, fromLLMFields ⟨none, none, some (MetaVal.str "None"), some (MetaVal.str "None"),
        some (MetaVal.str "None")⟩ = some cf ∧
      cf.categories ≠ none ∧ "None" ∈ cf.keywords := by
  refine ⟨by decide, ⟨none, none, some ["None"], ["None"], none⟩, by decide, by decide, by decide⟩

/-- C7 amended: the literal None to absent rule applies exactly to authors,
affiliations and published_date; the comma separated list fields are split
on commas with each item stripped and empty items dropped; categories and
keywords retain a literal None as an ordinary item. -/
theorem claim_c7_amended (m : RawMetadata) :
    (∀ s, m.authors = some (MetaVal.str s) →
      (processedMeta m).authors
        = (if splitTrimPy s = ["None"] then none else some (MetaVal.list (splitTrimPy s)))) ∧
    (∀ s, m.affiliations = some (MetaVal.str s) →
      (processedMeta m).affiliations
        = (if splitTrimPy s = ["None"] then none else some (MetaVal.list (splitTrimPy s)))) ∧
    (m.published_date = some (MetaVal.str "None") → (processedMeta m).published_date = none) ∧
    (∀ s, s ≠ "None" → m.published_date = some (MetaVal.str s) →
      (processedMeta m).published_date = some (MetaVal.str s)) ∧
    (∀ s, m.categories = some (MetaVal.str s) →
      (processedMeta m).categories = some (MetaVal.list (splitTrimPy s))) ∧
    (∀ s, m.keywords = some (MetaVal.str s) →
      (processedMeta m).keywords = some (MetaVal.list (splitTrimPy s))) ∧
    (∀ s, ∀ x ∈ splitTrimPy s, pyStripS x = x ∧ x ≠ "") := by
  refine ⟨?_, ?_, ?_, ?_, ?_, ?_, ?_⟩
  · intro s hs
    simp only [processedMeta, hs, normListField, noneNormalize]
    split
    next hcase =>
      simp at hcase
      simp [hcase]
    next hcase =>
      simp at hcase
      simp [hcase]
  · intro s hs
    simp only [processedMeta, hs, normListField, noneNormalize]
    split
    next hcase =>
      simp at hcase
      simp [hcase]
    next hcase =>
      simp at hcase
      simp [hcase]
  · intro hs
    simp [processedMeta, hs, noneNormalize]
  · intro s hsne hs
    simp [processedMeta, hs, noneNormalize, hsne]
  · intro s hs
    simp [processedMeta, hs, normListField]
  · intro s hs
    simp [processedMeta, hs, normListField]
  · intro s x hx
    unfold splitTrimPy at hx
    rw [List.mem_filter] at hx
    obtain ⟨hx1, hx2⟩ := hx
    rw [List.mem_map] at hx1
    obtain ⟨l, _, hl⟩ := hx1
    constructor
    · rw [← hl]
      unfold pyStripS
      rw [show (String.mk (pyStrip l)).toList = pyStrip l from rfl, pyStrip_idem]
    · simpa using hx2

/-- Closed instance of the amended C7: authors whitespace padded None is
dropped, published_date None becomes absent, categories keeps the literal
None. -/
theorem claim_c7_amended_witness :
    ((⟨some (MetaVal.str " None "), none, some (MetaVal.str "None"), none,
        some (MetaVal.str "None")⟩ : RawMetadata).authors = some (MetaVal.str " None ")) ∧
    (processedMeta ⟨some (MetaVal.str " None "), none, some (MetaVal.str "None"), none,
        some (MetaVal.str "None")⟩).authors
      = (if splitTrimPy " None " = ["None"] then none
         else some (MetaVal.list (splitTrimPy " None "))) ∧
    (processedMeta ⟨some (MetaVal.str " None "), none, some (MetaVal.str "None"), none,
        some (MetaVal.str "None")⟩).published_date = none ∧
    (processedMeta ⟨some (MetaVal.str " None "), none, some (MetaVal.str "None"), none,
        some (MetaVal.str "None")⟩).categories = some (MetaVal.list (splitTrimPy "None")) :=
  ⟨rfl,
   (claim_c7_amended _).1 " None " rfl,
   (claim_c7_amended _).2.2.1 rfl,
   (claim_c7_amended _).2.2.2.2.1 "None" rfl⟩

/-! ### The dedup loop of the coordinator

HTMLParser._extract_and_analyze_figures walks the img tags of the main
content in document order, skipping tags with an empty or data: src, tags
whose resolved absolute URL does not start with http, and URLs already in
the seen set; every accepted tag adds its URL to the seen set and launches
one Figure.from_llm task with id fig-(index) over ALL img tags (also the
skipped ones) and the stripped alt-or-title caption.  The meta image loop
then runs with the same seen set and launches one task per new meta URL.
urljoin is modelled by an arbitrary resolve function. -/

structure ImgTag where
  src : Option String
  alt : Option String
  title : Option String
deriving DecidableEq, Repr

structure MetaTag where
  content : Option String
  alt : String
deriving DecidableEq, Repr

/-- str.startswith over character lists (String.startsWith itself does not
evaluate inside the kernel). -/
def startsAux : List Char → List Char → Bool
  | [], _ => true
  | _ :: _, [] => false
  | p :: ps, c :: cs => if c = p then startsAux ps cs else false

def strStartsWith (s lit : String) : Bool :=
  startsAux lit.toList s.toList

/-- The accept test of the main img loop, returning the resolved URL when
the tag is accepted for the given seen set. -/
def imgEligible (resolve : String → String) (seen : List String) (img : ImgTag) :
    Option String :=
  match img.src with
  | none => none
  | some s =>
    if s = "" then none
    else if strStartsWith s "data:" then none
    else if strStartsWith (resolve s) "http" then
      (if resolve s ∈ seen then none else some (resolve s))
    else none

/-- caption = (alt or title).strip() of the accepted img tag; the Python
get calls default to the empty string, and the strip result may be
empty. -/
def imgCaption (img : ImgTag) : Option String :=
  some (pyStripS (if (img.alt.getD "") ≠ "" then img.alt.getD "" else img.title.getD ""))

/-- The main loop: index runs over all img tags, seen accumulates accepted
URLs, and each accepted tag contributes one Figure.from_llm task. -/
def buildImgTasksAux (resolve : String → String) :
    List ImgTag → Nat → List String → List Cand × List String
  | [], _, seen => ([], seen)
  | img :: rest, idx, seen =>
    match imgEligible resolve seen img with
    | some u =>
      let out := buildImgTasksAux resolve rest (idx + 1) (u :: seen)
      (⟨"fig-" ++ toString idx, u, imgCaption img⟩ :: out.1, out.2)
    | none => buildImgTasksAux resolve rest (idx + 1) seen

/-- The accept test of _extract_meta_images for one meta tag. -/
def metaEligible (resolve : String → String) (seen : List String) (mt : MetaTag) :
    Option String :=
  match mt.content with
  | none => none
  | some c =>
    if c = "" then none
    else if strStartsWith (resolve c) "http" then
      (if resolve c ∈ seen then none else some (resolve c))
    else none

/-- _extract_meta_images: collect (url, alt) pairs of the accepted meta
tags, threading the same seen set. -/
def extractMetaImagesAux (resolve : String → String) :
    List MetaTag → List String → List (String × String) × List String
  | [], seen => ([], seen)
  | mt :: rest, seen =>
    match metaEligible resolve seen mt with
    | some u =>
      let out := extractMetaImagesAux resolve rest (u :: seen)
      ((u, mt.alt) :: out.1, out.2)
    | none => extractMetaImagesAux resolve rest seen

/-- One meta image task: id fig-meta-(index over the collected list),
caption stripped alt when the alt is non empty, otherwise None. -/
def metaTaskOf (idx : Nat) (p : String × String) : Cand :=
  ⟨"fig-meta-" ++ toString idx, p.1, if p.2 ≠ "" then some (pyStripS p.2) else none⟩

def metaTasks : Nat → List (String × String) → List Cand
  | _, [] => []
  | idx, p :: rest => metaTaskOf idx p :: metaTasks (idx + 1) rest

/-- The full task list of _extract_and_analyze_figures: the main loop from
index 0 with an empty seen set, then the meta loop with the final seen
set. -/
def extractTasks (resolve : String → String) (imgs : List ImgTag) (metas : List MetaTag) :
    List Cand :=
  let main := buildImgTasksAux resolve imgs 0 []
  let meta := extractMetaImagesAux resolve metas main.2
  main.1 ++ metaTasks 0 meta.1

/-! ### Dedup metatheory -/

theorem imgEligible_some (resolve : String → String) (seen : List String) (img : ImgTag)
    (v : String) (h : imgEligible resolve seen img = some v) :
    imgEligible resolve [] img = some v ∧ v ∉ seen := by
  unfold imgEligible at h ⊢
  split at h
  · simp at h
  next s heq =>
    split_ifs at h with h1 h2 h3 h4
    all_goals simp at h
    subst h
    simp [h1, h2, h3, h4]

theorem imgEligible_unseen (resolve : String → String) (seen : List String) (img : ImgTag)
    (v : String) (h : imgEligible resolve [] img = some v) (hv : v ∉ seen) :
    imgEligible resolve seen img = some v := by
  unfold imgEligible at h ⊢
  split at h
  · simp at h
  next s heq =>
    split_ifs at h with h1 h2 h3 h4
    all_goals simp at h
    subst h
    simp [h1, h2, h3, hv]

theorem metaEligible_some (resolve : String → String) (seen : List String) (mt : MetaTag)
    (v : String) (h : metaEligible resolve seen mt = some v) : v ∉ seen := by
  unfold metaEligible at h
  split at h
  · simp at h
  next c heq =>
    split_ifs at h with h1 h2 h3
    all_goals simp at h
    subst h
    exact h3

theorem buildAux_seen (resolve : String → String) (u : String) :
    ∀ imgs idx seen, u ∈ seen →
      ((buildImgTasksAux resolve imgs idx seen).1.filter (fun c => c.path == u) = []
        ∧ u ∈ (buildImgTasksAux resolve imgs idx seen).2) := by
  intro imgs
  induction imgs with
  | nil => intro idx seen hu; exact ⟨rfl, hu⟩
  | cons img rest ih =>
    intro idx seen hu
    cases he : imgEligible resolve seen img with
    | none =>
      have heq2 : buildImgTasksAux resolve (img :: rest) idx seen
          = buildImgTasksAux resolve rest (idx + 1) seen := by
        rw [buildImgTasksAux, he]
      rw [heq2]
      exact ih (idx + 1) seen hu
    | some v =>
      have heq2 : buildImgTasksAux resolve (img :: rest) idx seen
          = (⟨"fig-" ++ toString idx, v, imgCaption img⟩ ::
              (buildImgTasksAux resolve rest (idx + 1) (v :: seen)).1,
             (buildImgTasksAux resolve rest (idx + 1) (v :: seen)).2) := by
        rw [buildImgTasksAux, he]
      rw [heq2]
      have hvnotin := (imgEligible_some resolve seen img v he).2
      have hvne : v ≠ u := fun hvu => hvnotin (hvu ▸ hu)
      have ihr := ih (idx + 1) (v :: seen) (by simp [hu])
      refine ⟨?_, ihr.2⟩
      rw [List.filter_cons]
      have hfalse : ((⟨"fig-" ++ toString idx, v, imgCaption img⟩ : Cand).path == u) = false := by
        simp [hvne]
      rw [hfalse]
      simp only [Bool.false_eq_true, if_false]
      exact ihr.1

theorem buildAux_no_u (resolve : String → String) (u : String) :
    ∀ imgs idx seen, u ∉ seen → (∀ x ∈ imgs, ¬ imgEligible resolve [] x = some u) →
      ((buildImgTasksAux resolve imgs idx seen).1.filter (fun c => c.path == u) = []
        ∧ u ∉ (buildImgTasksAux resolve imgs idx seen).2) := by
  intro imgs
  induction imgs with
  | nil => intro idx seen hu _; exact ⟨rfl, hu⟩
  | cons img rest ih =>
    intro idx seen hu hall
    cases he : imgEligible resolve seen img with
    | none =>
      have heq2 : buildImgTasksAux resolve (img :: rest) idx seen
          = buildImgTasksAux resolve rest (idx + 1) seen := by
        rw [buildImgTasksAux, he]
      rw [heq2]
      exact ih (idx + 1) seen hu (fun x hx => hall x (by simp [hx]))
    | some v =>
      have heq2 : buildImgTasksAux resolve (img :: rest) idx seen
          = (⟨"fig-" ++ toString idx, v, imgCaption img⟩ ::
              (buildImgTasksAux resolve rest (idx + 1) (v :: seen)).1,
             (buildImgTasksAux resolve rest (idx + 1) (v :: seen)).2) := by
        rw [buildImgTasksAux, he]
      rw [heq2]
      have helig := (imgEligible_some resolve seen img v he).1
      have hvne : v ≠ u := by
        intro hvu
        exact hall img (by simp) (hvu ▸ helig)
      have hunotin : u ∉ v :: seen := by
        intro hmem
        cases List.mem_cons.mp hmem with
        | inl h => exact hvne h.symm
        | inr h => exact hu h
      have ihr := ih (idx + 1) (v :: seen) hunotin (fun x hx => hall x (by simp [hx]))
      refine ⟨?_, ihr.2⟩
      rw [List.filter_cons]
      have hfalse : ((⟨"fig-" ++ toString idx, v, imgCaption img⟩ : Cand).path == u) = false := by
        simp [hvne]
      rw [hfalse]
      simp only [Bool.false_eq_true, if_false]
      exact ihr.1

theorem buildAux_append (resolve : String → String) :
    ∀ l1 l2 idx seen,
      buildImgTasksAux resolve (l1 ++ l2) idx seen
        = ((buildImgTasksAux resolve l1 idx seen).1
            ++ (buildImgTasksAux resolve l2 (idx + l1.length)
                (buildImgTasksAux resolve l1 idx seen).2).1,
           (buildImgTasksAux resolve l2 (idx + l1.length)
                (buildImgTasksAux resolve l1 idx seen).2).2) := by
  intro l1
  induction l1 with
  | nil => intro l2 idx seen; simp [buildImgTasksAux]
  | cons img rest ih =>
    intro l2 idx seen
    cases he : imgEligible resolve seen img with
    | none =>
      have heq2 : ∀ tail, buildImgTasksAux resolve (img :: tail) idx seen
          = buildImgTasksAux resolve tail (idx + 1) seen := by
        intro tail
        rw [buildImgTasksAux, he]
      rw [List.cons_append, heq2 (rest ++ l2), heq2 rest]
      rw [ih l2 (idx + 1) seen]
      have harith : idx + 1 + rest.length = idx + (rest.length + 1) := by omega
      rw [harith]
      rfl
    | some v =>
      have heq2 : ∀ tail, buildImgTasksAux resolve (img :: tail) idx seen
          = (⟨"fig-" ++ toString idx, v, imgCaption img⟩ ::
              (buildImgTasksAux resolve tail (idx + 1) (v :: seen)).1,
             (buildImgTasksAux resolve tail (idx + 1) (v :: seen)).2) := by
        intro tail
        rw [buildImgTasksAux, he]
      rw [List.cons_append, heq2 (rest ++ l2), heq2 rest]
      rw [ih l2 (idx + 1) (v :: seen)]
      have harith : idx + 1 + rest.length = idx + (rest.length + 1) := by omega
      rw [harith]
      rfl

theorem metaAux_no_u (resolve : String → String) (u : String) :
    ∀ metas seen, u ∈ seen →
      ∀ p ∈ (extractMetaImagesAux resolve metas seen).1, p.1 ≠ u := by
  intro metas
  induction metas with
  | nil => intro seen _ p hp; simp [extractMetaImagesAux] at hp
  | cons mt rest ih =>
    intro seen hu p hp
    cases he : metaEligible resolve seen mt with
    | none =>
      have heq2 : extractMetaImagesAux resolve (mt :: rest) seen
          = extractMetaImagesAux resolve rest seen := by
        rw [extractMetaImagesAux, he]
      rw [heq2] at hp
      exact ih seen hu p hp
    | some v =>
      have heq2 : extractMetaImagesAux resolve (mt :: rest) seen
          = ((v, mt.alt) :: (extractMetaImagesAux resolve rest (v :: seen)).1,
             (extractMetaImagesAux resolve rest (v :: seen)).2) := by
        rw [extractMetaImagesAux, he]
      rw [heq2] at hp
      have hvnotin := metaEligible_some resolve seen mt v he
      have hvne : v ≠ u := fun hvu => hvnotin (hvu ▸ hu)
      simp only [List.mem_cons] at hp
      cases hp with
      | inl hp => rw [hp]; exact hvne
      | inr hp => exact ih (v :: seen) (by simp [hu]) p hp

theorem metaTasks_filter_no_u (u : String) :
    ∀ ps idx, (∀ p ∈ ps, p.1 ≠ u) →
      (metaTasks idx ps).filter (fun c => c.path == u) = [] := by
  intro ps
  induction ps with
  | nil => intro idx _; rfl
  | cons p rest ih =>
    intro idx hall
    rw [metaTasks, List.filter_cons]
    have hne := hall p (by simp)
    have hfalse : ((metaTaskOf idx p).path == u) = false := by
      simp [metaTaskOf, hne]
    rw [hfalse]
    simp only [Bool.false_eq_true, if_false]
    exact ih (idx + 1) (fun q hq => hall q (by simp [hq]))

/-- C5: when two img tags resolve to the same absolute URL u (and are both
individually acceptable), the task list of the coordinator holds exactly
one Figure.from_llm call for u, namely the one of the first occurrence,
carrying its id fig-(index of the first occurrence) and its caption; the
meta image loop cannot add another task for u either. -/
theorem claim_c5_dedup_first_wins (resolve : String → String)
    (pre mid post : List ImgTag) (a b : ImgTag) (metas : List MetaTag) (u : String)
    (hpre : ∀ x ∈ pre, ¬ imgEligible resolve [] x = some u)
    (ha : imgEligible resolve [] a = some u)
    (_hb : imgEligible resolve [] b = some u) :
    (extractTasks resolve (pre ++ a :: (mid ++ b :: post)) metas).filter
        (fun c => c.path == u)
      = [⟨"fig-" ++ toString pre.length, u, imgCaption a⟩] := by
  unfold extractTasks
  rw [buildAux_append resolve pre (a :: (mid ++ b :: post)) 0 []]
  have hprer := buildAux_no_u resolve u pre 0 [] (by simp) hpre
  have heq2 : buildImgTasksAux resolve (a :: (mid ++ b :: post)) (0 + pre.length)
      (buildImgTasksAux resolve pre 0 []).2
      = (⟨"fig-" ++ toString (0 + pre.length), u, imgCaption a⟩ ::
          (buildImgTasksAux resolve (mid ++ b :: post) (0 + pre.length + 1)
            (u :: (buildImgTasksAux resolve pre 0 []).2)).1,
         (buildImgTasksAux resolve (mid ++ b :: post) (0 + pre.length + 1)
            (u :: (buildImgTasksAux resolve pre 0 []).2)).2) := by
    rw [buildImgTasksAux,
      imgEligible_unseen resolve (buildImgTasksAux resolve pre 0 []).2 a u ha hprer.2]
  rw [heq2]
  have hrest := buildAux_seen resolve u (mid ++ b :: post) (0 + pre.length + 1)
    (u :: (buildImgTasksAux resolve pre 0 []).2) (by simp)
  rw [List.filter_append, List.filter_append, hprer.1, List.filter_cons]
  have hpath : ((⟨"fig-" ++ toString (0 + pre.length), u, imgCaption a⟩ : Cand).path == u)
      = true := by
    simp
  rw [hpath]
  simp only [if_true]
  rw [hrest.1]
  have hmeta := metaTasks_filter_no_u u
    (extractMetaImagesAux resolve metas
      (buildImgTasksAux resolve (mid ++ b :: post) (0 + pre.length + 1)
        (u :: (buildImgTasksAux resolve pre 0 []).2)).2).1 0
    (metaAux_no_u resolve u metas _ hrest.2)
  rw [hmeta]
  simp

/-- Closed instance of C5: two img tags with src http://u (the second with
a different alt) after an ineligible tag, plus a duplicate meta image; one
task for http://u is produced, with id fig-1 and the stripped caption of
the first occurrence. -/
theorem claim_c5_witness :
    (∀ x ∈ ([⟨some "x", none, none⟩] : List ImgTag),
        ¬ imgEligible (fun s => s) [] x = some "http://u") ∧
    imgEligible (fun s => s) [] (⟨some "http://u", some " cat ", none⟩ : ImgTag)
      = some "http://u" ∧
    imgEligible (fun s => s) [] (⟨some "http://u", some "dog", none⟩ : ImgTag)
      = some "http://u" ∧
    (extractTasks (fun s => s)
        (([⟨some "x", none, none⟩] : List ImgTag)
          ++ (⟨some "http://u", some " cat ", none⟩ : ImgTag)
            :: (([] : List ImgTag) ++ (⟨some "http://u", some "dog", none⟩ : ImgTag)
              :: ([] : List ImgTag)))
        ([⟨some "http://u", "malt"⟩] : List MetaTag)).filter
          (fun c => c.path == "http://u")
      = [⟨"fig-" ++ toString (List.length ([⟨some "x", none, none⟩] : List ImgTag)),
          "http://u", imgCaption (⟨some "http://u", some " cat ", none⟩ : ImgTag)⟩] :=
  ⟨by decide, by decide, by decide,
    claim_c5_dedup_first_wins (fun s => s) [⟨some "x", none, none⟩] [] []
      ⟨some "http://u", some " cat ", none⟩ ⟨some "http://u", some "dog", none⟩
      [⟨some "http://u", "malt"⟩] "http://u" (by decide) (by decide) (by decide)⟩

/-! ### SHA-256 (the hashlib.sha256 call of ToolStateManager._generate_hash)

A complete executable model of hashlib.sha256 over the UTF-8 encoding of
the key, validated against the standard test vectors.  Machine words are
naturals reduced modulo 2 to the 32. -/

def M32 : Nat := 4294967296

def add32 (a b : Nat) : Nat := (a + b) % M32

def rotr32 (n x : Nat) : Nat := ((x >>> n) ||| (x <<< (32 - n))) % M32

def bsig0 (x : Nat) : Nat := rotr32 2 x ^^^ rotr32 13 x ^^^ rotr32 22 x

def bsig1 (x : Nat) : Nat := rotr32 6 x ^^^ rotr32 11 x ^^^ rotr32 25 x

def ssig0 (x : Nat) : Nat := rotr32 7 x ^^^ rotr32 18 x ^^^ (x >>> 3)

def ssig1 (x : Nat) : Nat := rotr32 17 x ^^^ rotr32 19 x ^^^ (x >>> 10)

def shaK : List Nat :=
  [1116352408, 1899447441, 3049323471, 3921009573,
   961987163, 1508970993, 2453635748, 2870763221,
   3624381080, 310598401, 607225278, 1426881987,
   1925078388, 2162078206, 2614888103, 3248222580,
   3835390401, 4022224774, 264347078, 604807628,
   770255983, 1249150122, 1555081692, 1996064986,
   2554220882, 2821834349, 2952996808, 3210313671,
   3336571891, 3584528711, 113926993, 338241895,
   666307205, 773529912, 1294757372, 1396182291,
   1695183700, 1986661051, 2177026350, 2456956037,
   2730485921, 2820302411, 3259730800, 3345764771,
   3516065817, 3600352804, 4094571909, 275423344,
   430227734, 506948616, 659060556, 883997877,
   958139571, 1322822218, 1537002063, 1747873779,
   1955562222, 2024104815, 2227730452, 2361852424,
   2428436474, 2756734187, 3204031479, 3329325298]

structure Sha256State where
  a : Nat
  b : Nat
  c : Nat
  d : Nat
  e : Nat
  f : Nat
  g : Nat
  h : Nat
deriving DecidableEq, Repr

def initState : Sha256State :=
  ⟨1779033703, 3144134277, 1013904242, 2773480762,
   1359893119, 2600822924, 528734635, 1541459225⟩

/-- UTF-8 encoding of one character, as Python str.encode produces it. -/
def utf8Bytes (c : Char) : List Nat :=
  let n := c.toNat
  if n < 0x80 then [n]
  else if n < 0x800 then
    [0xc0 ||| (n >>> 6), 0x80 ||| (n &&& 0x3f)]
  else if n < 0x10000 then
    [0xe0 ||| (n >>> 12), 0x80 ||| ((n >>> 6) &&& 0x3f), 0x80 ||| (n &&& 0x3f)]
  else
    [0xf0 ||| (n >>> 18), 0x80 ||| ((n >>> 12) &&& 0x3f), 0x80 ||| ((n >>> 6) &&& 0x3f),
     0x80 ||| (n &&& 0x3f)]

def strBytes (s : String) : List Nat :=
  (s.toList.map utf8Bytes).flatten

def lenBytes64 (n : Nat) : List Nat :=
  [(n >>> 56) % 256, (n >>> 48) % 256, (n >>> 40) % 256, (n >>> 32) % 256,
   (n >>> 24) % 256, (n >>> 16) % 256, (n >>> 8) % 256, n % 256]

def padMessage (msg : List Nat) : List Nat :=
  let bitLen := (8 * msg.length) % (2 ^ 64)
  let padZeros := (119 - msg.length % 64) % 64
  msg ++ [0x80] ++ List.replicate padZeros 0 ++ lenBytes64 bitLen

def bytesToWords : List Nat → List Nat
  | b1 :: b2 :: b3 :: b4 :: rest => (((b1 * 256 + b2) * 256 + b3) * 256 + b4) :: bytesToWords rest
  | _ => []

def extendSchedule : List Nat → Nat → List Nat
  | w, 0 => w
  | w, n + 1 =>
    let t := w.length
    extendSchedule
      (w ++ [(ssig1 (w.getD (t - 2) 0) + w.getD (t - 7) 0 + ssig0 (w.getD (t - 15) 0)
        + w.getD (t - 16) 0) % M32]) n

def shaRound (st : Sha256State) (kt wt : Nat) : Sha256State :=
  let ch := (st.e &&& st.f) ^^^ ((st.e ^^^ (M32 - 1)) &&& st.g)
  let t1 := (st.h + bsig1 st.e + ch + kt + wt) % M32
  let maj := (st.a &&& st.b) ^^^ (st.a &&& st.c) ^^^ (st.b &&& st.c)
  let t2 := (bsig0 st.a + maj) % M32
  ⟨(t1 + t2) % M32, st.a, st.b, st.c, (st.d + t1) % M32, st.e, st.f, st.g⟩

def runRounds : Sha256State → List Nat → List Nat → Sha256State
  | st, k :: ks, w :: ws => runRounds (shaRound st k w) ks ws
  | st, _, _ => st

def compressBlock (st : Sha256State) (block : List Nat) : Sha256State :=
  let ws := extendSchedule (bytesToWords block) 48
  let r := runRounds st shaK ws
  ⟨add32 st.a r.a, add32 st.b r.b, add32 st.c r.c, add32 st.d r.d,
   add32 st.e r.e, add32 st.f r.f, add32 st.g r.g, add32 st.h r.h⟩

def processBlocks : Nat → Sha256State → List Nat → Sha256State
  | 0, st, _ => st
  | _ + 1, st, [] => st
  | fuel + 1, st, bytes => processBlocks fuel (compressBlock st (bytes.take 64)) (bytes.drop 64)

def word32Bytes (w : Nat) : List Nat :=
  [(w >>> 24) % 256, (w >>> 16) % 256, (w >>> 8) % 256, w % 256]

def stateBytes (st : Sha256State) : List Nat :=
  word32Bytes st.a ++ word32Bytes st.b ++ word32Bytes st.c ++ word32Bytes st.d
    ++ word32Bytes st.e ++ word32Bytes st.f ++ word32Bytes st.g ++ word32Bytes st.h

def hexDigitChars : List Char :=
  "0123456789abcdef".toList

def hexChar (n : Nat) : Char := hexDigitChars.getD n '0'

def byteHex (b : Nat) : List Char := [hexChar (b / 16), hexChar (b % 16)]

/-- hashlib.sha256(text.encode()).hexdigest() as a character list. -/
def sha256HexChars (s : String) : List Char :=
  let msg := padMessage (strBytes s)
  let st := processBlocks msg.length initState msg
  ((stateBytes st).map byteHex).flatten

/-- ToolStateManager._generate_hash: the first 16 hex characters of the
sha256 hex digest of the key. -/
def generateHash (s : String) : String :=
  String.mk ((sha256HexChars s).take 16)

/-- Validation of the model on the standard one block test vector. -/
theorem sha256_abc :
    String.mk (sha256HexChars "abc")
      = "ba7816bf8f01cfea414140de5dae2223b00361a396177a9cb410ff61f20015ad" := by
  decide

theorem sha256HexChars_length (s : String) : (sha256HexChars s).length = 64 := rfl

theorem hexChar_mem (n : Nat) : hexChar n ∈ hexDigitChars := by
  unfold hexChar
  by_cases h : n < hexDigitChars.length
  · rw [List.getD_eq_getElem _ _ h]
    exact List.getElem_mem h
  · rw [List.getD_eq_default _ _ (Nat.le_of_not_lt h)]
    decide

theorem mem_hex_flatten (c : Char) :
    ∀ bytes : List Nat, c ∈ (bytes.map byteHex).flatten → c ∈ hexDigitChars := by
  intro bytes
  induction bytes with
  | nil => intro hc; simp at hc
  | cons b rest ih =>
    intro hc
    simp only [List.map_cons, List.flatten_cons, List.mem_append] at hc
    cases hc with
    | inl hc =>
      simp only [byteHex, List.mem_cons] at hc
      rcases hc with hc | hc | hc
      · rw [hc]; exact hexChar_mem _
      · rw [hc]; exact hexChar_mem _
      · simp at hc
    | inr hc => exact ih hc

theorem sha256HexChars_mem (s : String) (c : Char) (hc : c ∈ sha256HexChars s) :
    c ∈ hexDigitChars := by
  unfold sha256HexChars at hc
  exact mem_hex_flatten c _ hc

/-! ### The artifact store (ToolStateManager in src/agent/tool_state.py)

Dicts are association lists whose lookup returns the most recently inserted
binding (which is lookup equivalent to a Python dict with overwriting
assignment).  A heap of instances, indexed by position, models Python
object identity: tool_state_context constructs one fresh instance per
request, and every method of ToolStateManager mutates only the attributes
of self. -/

structure ParseResult where
  content : ContentFields
  figures : List Figure
deriving DecidableEq, Repr

structure SummaryResult where
  summary : String
  thumbnails : Option (List String)
deriving DecidableEq, Repr

structure ToolState where
  parse_results : List (String × ParseResult)
  summary_results : List (String × SummaryResult)
  last_parse_hash : Option String
  last_summary_hash : Option String
  slack_channel_id : Option String
  message_sent : Bool
deriving DecidableEq, Repr

/-- ToolStateManager.__init__: fresh empty dicts and cleared pointers. -/
def initToolState : ToolState := ⟨[], [], none, none, none, false⟩

def dictGet {α : Type} (l : List (String × α)) (k : String) : Option α :=
  (l.find? (fun p => p.1 == k)).map (fun p => p.2)

/-- store_parse_result: hash the url, overwrite the slot, move the last
parse hash pointer, return the hash. -/
def storeParseResult (st : ToolState) (url : String) (r : ParseResult) : String × ToolState :=
  let h := generateHash url
  (h, ⟨(h, r) :: st.parse_results, st.summary_results, some h, st.last_summary_hash,
       st.slack_channel_id, st.message_sent⟩)

/-- get_parse_result: an explicit hash wins when truthy (the Python or
treats the empty string as falsy), else the last parse hash; none models
the ValueError paths. -/
def getParseResult (st : ToolState) (hq : Option String) : Option ParseResult :=
  let eff := match hq with
             | some s => if s ≠ "" then some s else st.last_parse_hash
             | none => st.last_parse_hash
  match eff with
  | none => none
  | some h => dictGet st.parse_results h

/-- store_summary_result: the summary hash is the parse hash suffixed with
_sum. -/
def storeSummaryResult (st : ToolState) (parseHash : String) (r : SummaryResult) :
    String × ToolState :=
  let sh := parseHash ++ "_sum"
  (sh, ⟨st.parse_results, (sh, r) :: st.summary_results, st.last_parse_hash, some sh,
        st.slack_channel_id, st.message_sent⟩)

/-- mark_message_sent. -/
def markMessageSent (st : ToolState) : ToolState :=
  ⟨st.parse_results, st.summary_results, st.last_parse_hash, st.last_summary_hash,
   st.slack_channel_id, true⟩

def getAt {α : Type} : List α → Nat → Option α
  | [], _ => none
  | x :: _, 0 => some x
  | _ :: xs, n + 1 => getAt xs n

def updateAt {α : Type} : List α → Nat → (α → α) → List α
  | [], _, _ => []
  | x :: xs, 0, f => f x :: xs
  | x :: xs, n + 1, f => x :: updateAt xs n f

/-- tool_state_context: construct a fresh instance; its index is the new
instance identity. -/
def newManager (heap : List ToolState) : List ToolState × Nat :=
  (heap ++ [initToolState], heap.length)

def heapStoreParse (heap : List ToolState) (i : Nat) (url : String) (r : ParseResult) :
    List ToolState :=
  updateAt heap i (fun st => (storeParseResult st url r).2)

def heapStoreSummary (heap : List ToolState) (i : Nat) (parseHash : String)
    (r : SummaryResult) : List ToolState :=
  updateAt heap i (fun st => (storeSummaryResult st parseHash r).2)

def heapMarkSent (heap : List ToolState) (i : Nat) : List ToolState :=
  updateAt heap i markMessageSent

theorem getAt_updateAt_ne {α : Type} :
    ∀ (l : List α) (i j : Nat) (f : α → α), i ≠ j → getAt (updateAt l i f) j = getAt l j := by
  intro l
  induction l with
  | nil => intro i j f _; cases i <;> rfl
  | cons x xs ih =>
    intro i j f hij
    cases i with
    | zero =>
      cases j with
      | zero => exact absurd rfl hij
      | succ j2 => rfl
    | succ i2 =>
      cases j with
      | zero => rfl
      | succ j2 =>
        show getAt (updateAt xs i2 f) j2 = getAt xs j2
        exact ih i2 j2 f (fun h => hij (by rw [h]))

theorem getAt_append_left {α : Type} :
    ∀ (l1 l2 : List α) (j : Nat), j < l1.length → getAt (l1 ++ l2) j = getAt l1 j := by
  intro l1
  induction l1 with
  | nil => intro l2 j hj; simp at hj
  | cons x xs ih =>
    intro l2 j hj
    cases j with
    | zero => rfl
    | succ j2 =>
      show getAt (xs ++ l2) j2 = getAt xs j2
      exact ih l2 j2 (by simp at hj; omega)

theorem getAt_append_self {α : Type} :
    ∀ (l : List α) (x : α), getAt (l ++ [x]) l.length = some x := by
  intro l x
  induction l with
  | nil => rfl
  | cons y ys ih => exact ih

/-- C6: storing a parse result for the same source reference twice yields
the same hash both times; the hash is the first 16 hex characters of the
sha256 digest of the reference (16 characters long, all from the hex
alphabet); the second store overwrites the first in that slot, so a lookup
by that hash, or with no hash via the last parse hash pointer, returns the
most recently stored result. -/
theorem claim_c6_hash_determinism_last_write (st0 : ToolState) (url : String)
    (r1 r2 : ParseResult) :
    (storeParseResult st0 url r1).1
        = (storeParseResult (storeParseResult st0 url r1).2 url r2).1 ∧
    ((storeParseResult st0 url r1).1).length = 16 ∧
    (∀ c ∈ ((storeParseResult st0 url r1).1).toList, c ∈ hexDigitChars) ∧
    getParseResult (storeParseResult (storeParseResult st0 url r1).2 url r2).2
        (some (storeParseResult st0 url r1).1) = some r2 ∧
    getParseResult (storeParseResult (storeParseResult st0 url r1).2 url r2).2 none
      = some r2 := by
  have hfst : (storeParseResult st0 url r1).1 = generateHash url := rfl
  have hlen : (generateHash url).length = 16 := by
    show ((sha256HexChars url).take 16).length = 16
    rw [List.length_take, sha256HexChars_length]
    decide
  have hne : generateHash url ≠ "" := by
    intro h
    rw [h] at hlen
    simp at hlen
  refine ⟨rfl, by rw [hfst]; exact hlen, ?_, ?_, ?_⟩
  · intro c hc
    rw [hfst] at hc
    have hc2 : c ∈ (sha256HexChars url).take 16 := hc
    exact sha256HexChars_mem url c (List.mem_of_mem_take hc2)
  · rw [hfst]
    simp only [storeParseResult, getParseResult, hne, ne_eq, not_false_eq_true, if_true]
    simp [dictGet]
  · simp only [storeParseResult, getParseResult]
    simp [dictGet]

/-- C9: store operations on one instance of the heap leave every other
instance unchanged, in particular its last parse hash pointer and its hash
tables; a context constructs a fresh instance with empty tables and
cleared pointers without touching the existing instances, so two requests
with their own instances never observe each other. -/
theorem claim_c9_isolation (heap : List ToolState) (i j : Nat) (url parseHash : String)
    (r : ParseResult) (sr : SummaryResult) (hij : i ≠ j) :
    getAt (heapStoreParse heap i url r) j = getAt heap j ∧
    getAt (heapStoreSummary heap i parseHash sr) j = getAt heap j ∧
    getAt (heapMarkSent heap i) j = getAt heap j ∧
    (getAt (heapStoreParse heap i url r) j).map ToolState.last_parse_hash
      = (getAt heap j).map ToolState.last_parse_hash ∧
    getAt (newManager heap).1 (newManager heap).2 = some initToolState ∧
    initToolState.last_parse_hash = none ∧
    initToolState.last_summary_hash = none ∧
    initToolState.parse_results = [] ∧
    (j < heap.length → getAt (newManager heap).1 j = getAt heap j) := by
  have h1 := getAt_updateAt_ne heap i j (fun st => (storeParseResult st url r).2) hij
  refine ⟨h1, getAt_updateAt_ne heap i j _ hij, getAt_updateAt_ne heap i j _ hij,
    by rw [heapStoreParse, h1], getAt_append_self heap initToolState, rfl, rfl, rfl, ?_⟩
  intro hj
  exact getAt_append_left heap [initToolState] j hj

/-- Closed instance of C9: two fresh instances at indices 0 and 1; a store
on instance 0 leaves instance 1 untouched. -/
theorem claim_c9_witness :
    (0 : Nat) ≠ 1 ∧
    getAt (heapStoreParse [initToolState, initToolState] 0 "https://e.com"
        ⟨⟨none, none, none, [], none⟩, []⟩) 1
      = getAt [initToolState, initToolState] 1 :=
  ⟨by decide,
    (claim_c9_isolation [initToolState, initToolState] 0 1 "https://e.com" "ph"
      ⟨⟨none, none, none, [], none⟩, []⟩ ⟨"s", none⟩ (by decide)).1⟩

end OmniSummary
